import Mathlib

/-!
Verification of the CockroachDB columnar key-block codec (package `colblk`):
the key schema writer (`cockroachKeyWriter`), the key seeker
(`cockroachKeySeeker`), and their helper routines, shallowly embedded over
`List Nat` byte strings.

Helpers from `internal/crdbtest` and the generic column framework are not part
of the analysed source; they are modelled from the specification (each such
definition carries a doc comment starting with `Modelled from the spec:`).
-/

/-- Three-way comparison on naturals, mirroring Go `cmp.Compare`. -/
def cmpN (a b : Nat) : Ordering :=
  if a < b then .lt else if a = b then .eq else .gt

/-- Lexicographic three-way comparison on byte strings, mirroring Go
`bytes.Compare`. -/
def cmpL : List Nat → List Nat → Ordering
  | [], [] => .eq
  | [], _ :: _ => .lt
  | _ :: _, [] => .gt
  | a :: as, b :: bs =>
    match cmpN a b with
    | .eq => cmpL as bs
    | o => o

/-- Lexicographic three-way comparison on pairs of naturals (used for
MVCC (wall time, logical counter) tuples). -/
def cmpPair (p q : Nat × Nat) : Ordering :=
  match cmpN p.1 q.1 with
  | .eq => cmpN p.2 q.2
  | o => o

/-- Sign of an `Ordering` as an integer in {-1, 0, +1}. -/
def ordInt : Ordering → Int
  | .lt => -1
  | .eq => 0
  | .gt => 1

/-- Big-endian interpretation of a byte string as a natural number
(`binary.BigEndian.Uint64` / `Uint32` on the relevant slice lengths). -/
def beN (l : List Nat) : Nat :=
  l.foldl (fun a b => a * 256 + b) 0

/-- The 8 big-endian bytes of a 64-bit word, most significant first
(Go `byte(w >> 56) ... byte(w)`). -/
def be8 (w : Nat) : List Nat :=
  [w / 2 ^ 56 % 256, w / 2 ^ 48 % 256, w / 2 ^ 40 % 256, w / 2 ^ 32 % 256,
   w / 2 ^ 24 % 256, w / 2 ^ 16 % 256, w / 2 ^ 8 % 256, w % 256]

/-- The 4 big-endian bytes of a 32-bit word, most significant first
(Go `byte(w >> 24) ... byte(w)`). -/
def be4 (w : Nat) : List Nat :=
  [w / 2 ^ 24 % 256, w / 2 ^ 16 % 256, w / 2 ^ 8 % 256, w % 256]

/-- The user-key portion of an engine key: the bytes strictly before the
0x00 sentinel separator. -/
def rkOf (k : List Nat) : List Nat :=
  k.takeWhile (fun b => b ≠ 0)

/-- The suffix region of an engine key: everything after the sentinel,
including the trailing length byte. -/
def regionOf (k : List Nat) : List Nat :=
  k.drop ((rkOf k).length + 1)

/-- Modelled from the spec: `crdbtest.Split` (§4.1) returns the index of the
0x00 sentinel plus one, i.e. the length of the user-key portion including the
sentinel. -/
def crdbSplit (k : List Nat) : Nat :=
  (rkOf k).length + 1

/-- Well-formed engine key (spec §3): a 0x00-free user key, the sentinel,
and either an empty suffix region or a region whose trailing length byte
equals the region length (which is at least 2); all bytes below 256. -/
def wfKey (k : List Nat) : Bool :=
  (k == rkOf k ++ 0 :: regionOf k) && k.all (fun b => b < 256) &&
    (regionOf k == [] ||
      ((regionOf k).getLastD 0 == (regionOf k).length && 2 ≤ (regionOf k).length))

/-- Modelled from the spec: `crdbtest.DecodeEngineKey` (§4.1) walks to the
sentinel and classifies the suffix region by its length: 9 is an MVCC wall
time, 13 an MVCC wall time plus logical counter, 0 the bare form, and any
other length an untyped suffix (returned whole, so that it is self-describing
via its final length byte). Returns (user key, untyped suffix, wall, logical). -/
def decodeEngineKey (k : List Nat) : List Nat × List Nat × Nat × Nat :=
  let rk := rkOf k
  let reg := regionOf k
  if reg.length = 9 then (rk, [], beN (reg.take 8), 0)
  else if reg.length = 13 then
    (rk, [], beN (reg.take 8), beN ((reg.drop 8).take 4))
  else if reg.length = 0 then (rk, [], 0, 0)
  else (rk, reg, 0, 0)

/-- Wall-time field of a decoded engine key. -/
def wallOf (k : List Nat) : Nat := (decodeEngineKey k).2.2.1

/-- Logical-counter field of a decoded engine key. -/
def logOf (k : List Nat) : Nat := (decodeEngineKey k).2.2.2

/-- Untyped-suffix field of a decoded engine key. -/
def untOf (k : List Nat) : List Nat := (decodeEngineKey k).2.1

/-- Modelled from the spec: `crdbtest.CompareSuffixes` (§3 invariants).
Empty suffixes come before non-empty ones; two MVCC suffixes (region lengths
9 or 13) are ordered by descending (wall, logical) tuple; otherwise the
suffix regions are compared lexicographically ascending. -/
def crdbCompareSuffixes (a b : List Nat) : Ordering :=
  if a = [] ∨ b = [] then cmpN a.length b.length
  else if (a.length = 9 ∨ a.length = 13) ∧ (b.length = 9 ∨ b.length = 13) then
    cmpPair (beN (b.take 8), if b.length = 13 then beN ((b.drop 8).take 4) else 0)
      (beN (a.take 8), if a.length = 13 then beN ((a.drop 8).take 4) else 0)
  else cmpL a b

/-- Modelled from the spec: the engine comparator `crdbtest.Compare`
(§3 invariants): lexicographic on the user-key portions, and on equality the
suffix regions are compared by `crdbCompareSuffixes`. -/
def crCompare (a b : List Nat) : Ordering :=
  match cmpL (rkOf a) (rkOf b) with
  | .eq => crdbCompareSuffixes (regionOf a) (regionOf b)
  | o => o

/-- Modelled from the spec: `crdbtest.AppendTimestamp` (§3) renders the
suffix region for an MVCC timestamp: nothing when both fields are zero,
8 wall bytes plus length byte 9 when the logical counter is zero, and
8 wall bytes, 4 logical bytes and length byte 13 otherwise. -/
def appendTimestamp (wall logical : Nat) : List Nat :=
  if wall = 0 ∧ logical = 0 then []
  else if logical = 0 then be8 wall ++ [9]
  else be8 wall ++ be4 logical ++ [13]

/-- Modelled from the spec: `crbytes.CommonPrefix` returns the number of
leading bytes shared by the two strings. -/
def lcp : List Nat → List Nat → Nat
  | a :: as, b :: bs => if a = b then lcp as bs + 1 else 0
  | _, _ => 0

/-- The `KeyComparison` result of `ComparePrev` (block framework contract,
spec §4.2): the key's user-key length including the sentinel, the number of
leading bytes shared with the previous key (including the sentinel when the
whole user key matches), and the sign of the comparison with the previous
key. -/
structure KeyComparison where
  pfxLen : Nat
  sharedLen : Nat
  ukCmp : Int
  deriving Repr, DecidableEq

/-- State of `cockroachKeyWriter`: the four column builders (as the column
value sequences they accumulate) plus the previous row's suffix region. -/
structure CRWriter where
  rks : List (List Nat)
  walls : List Nat
  logicals : List Nat
  untyped : List (List Nat)
  prevSuffix : List Nat
  deriving Repr, DecidableEq

/-- The empty writer produced by the schema's `NewKeyWriter`. -/
def emptyWriter : CRWriter := ⟨[], [], [], [], []⟩

/-- `cockroachKeyWriter.ComparePrev` (source lines 65-92). -/
def comparePrev (w : CRWriter) (key : List Nat) : KeyComparison :=
  let pl := crdbSplit key
  if w.rks = [] then ⟨pl, 0, 1⟩
  else
    let lp := w.rks.getLastD []
    let c := lcp lp (key.take (pl - 1))
    if c = pl - 1 then
      ⟨pl, pl, ordInt (crdbCompareSuffixes (key.drop pl) w.prevSuffix)⟩
    else if lp.length = c then ⟨pl, c, 1⟩
    else ⟨pl, c, ordInt (cmpN (key.getD c 0) (lp.getD c 0))⟩

/-- `cockroachKeyWriter.WriteKey` (source lines 94-112): decode the key and
append the four column values; the logical-times builder has an implicit-zero
default, so storing the decoded value directly is equivalent. The previous
suffix buffer is set to `key[keyPrefixLen:]` where the caller passes
`keyPrefixLen = Split(key)`. -/
def writeKey (w : CRWriter) (key : List Nat) : CRWriter :=
  let d := decodeEngineKey key
  { rks := w.rks ++ [d.1]
    walls := w.walls ++ [d.2.2.1]
    logicals := w.logicals ++ [d.2.2.2]
    untyped := w.untyped ++ [d.2.1]
    prevSuffix := key.drop (crdbSplit key) }

/-- The writer after appending a list of keys in order. -/
def buildWriter (ks : List (List Nat)) : CRWriter :=
  ks.foldl writeKey emptyWriter

/-- `cockroachKeyWriter.MaterializeKey` (source lines 114-124): user key,
sentinel, then either the untyped suffix plus a length byte `byte(len)` or
the MVCC timestamp rendering. -/
def materializeKey (w : CRWriter) (i : Nat) : List Nat :=
  let dst := w.rks.getD i [] ++ [0]
  let unt := w.untyped.getD i []
  if 0 < unt.length then dst ++ unt ++ [unt.length % 256]
  else dst ++ appendTimestamp (w.walls.getD i 0) (w.logicals.getD i 0 % 2 ^ 32)

/-- The four column views a seeker reads from a finished block. The column
framework (out of scope, spec §1) hands the seeker exactly the values the
writer put in, so the block is identified with the writer's columns. -/
structure CRCols where
  rks : List (List Nat)
  walls : List Nat
  logicals : List Nat
  untyped : List (List Nat)
  deriving Repr, DecidableEq

/-- Column views of a finished writer. -/
def colsOf (w : CRWriter) : CRCols :=
  ⟨w.rks, w.walls, w.logicals, w.untyped⟩

/-- The block built from a key list (writer columns after appending all
keys). -/
def buildCols (ks : List (List Nat)) : CRCols :=
  colsOf (buildWriter ks)

/-- Modelled from the spec: bit `j` of the block's prefix-changed bit set is
set iff row `j`'s user key differs from row `j-1`'s (bit 0 is set). -/
def bitAt (rks : List (List Nat)) (j : Nat) : Bool :=
  j == 0 || !(rks.getD j [] == rks.getD (j - 1) [])

/-- Scan for the next set prefix-changed bit, with the termination measure
`rks.length - i` made explicit as structural fuel. -/
def seekSetBitGEF : Nat → List (List Nat) → Nat → Nat
  | 0, rks, _ => rks.length
  | fuel + 1, rks, i =>
    if i < rks.length then
      if bitAt rks i then i else seekSetBitGEF fuel rks (i + 1)
    else rks.length

/-- Modelled from the spec: `prefixChanged.SeekSetBitGE(i)` returns the
smallest `j ≥ i` whose prefix-changed bit is set, or the row count if none. -/
def seekSetBitGE (rks : List (List Nat)) (i : Nat) : Nat :=
  seekSetBitGEF (rks.length - i) rks i

/-- Index of the first element satisfying `p`, or the length if none
(the semantic content of a left-to-right search). -/
def firstIdx (p : α → Bool) : List α → Nat
  | [] => 0
  | a :: as => if p a then 0 else firstIdx p as + 1

/-- Modelled from the spec: `PrefixBytes.Search` (§4.3 step 1, §6) returns
the first row whose user key is ≥ the query user key (the row count if none)
and whether that row's user key equals the query's. -/
def pfxSearch (rks : List (List Nat)) (qp : List Nat) : Nat × Bool :=
  let r := firstIdx (fun s => !(cmpL s qp == .lt)) rks
  (r, decide (r < rks.length) && (rks.getD r [] == qp))

/-- The binary-search loop body, with the termination measure `u - l` made
explicit as structural fuel. -/
def bsLoopF : Nat → (Nat → Bool) → Nat → Nat → Nat
  | 0, _, l, _ => l
  | fuel + 1, p, l, u =>
    if l < u then
      if p ((l + u) / 2) then bsLoopF fuel p l ((l + u) / 2)
      else bsLoopF fuel p ((l + u) / 2 + 1) u
    else l

/-- The binary-search loop shared by both suffix searches (source lines
273-283 and 294-306): narrow `[l, u)` with midpoint `(l+u)/2`, moving `u`
down when the predicate holds and `l` up otherwise. -/
def bsLoop (p : Nat → Bool) (l u : Nat) : Nat :=
  bsLoopF (u - l) p l u

/-- The MVCC suffix binary search of `seekGEOnSuffix` (source lines 294-307),
as a standalone function: find the first row in `[l, u)` whose
(wall, logical) pair is at or below the seek pair. -/
def mvccSearch (c : CRCols) (l u qw ql : Nat) : Nat :=
  bsLoop (fun h =>
    decide (c.walls.getD h 0 < qw) ||
      ((c.walls.getD h 0 == qw) && decide (c.logicals.getD h 0 % 2 ^ 32 ≤ ql))) l u

/-- The untyped suffix binary search of `seekGEOnSuffix` (source lines
273-284), as a standalone function: first row in `[l, u)` whose untyped
suffix is lexicographically ≥ the seek suffix. -/
def untSearch (c : CRCols) (l u : Nat) (qs : List Nat) : Nat :=
  bsLoop (fun h => !(cmpL (c.untyped.getD h []) qs == .lt)) l u

/-- `cockroachKeySeeker.seekGEOnSuffix` (source lines 248-308), transcribing
the Go switch on `len(seekSuffix)`: 0 returns the index; 13 and 14
(`withLogical`, `withSynthetic`) parse wall and logical and run the MVCC
search; 9 (`withWall`) parses the wall only; any other length runs the
untyped search. The upper bound is `prefixChanged.SeekSetBitGE(index+1)`. -/
def seekGEOnSuffix (c : CRCols) (index : Nat) (seekSuffix : List Nat) : Nat :=
  if seekSuffix.length = 0 then index
  else if seekSuffix.length = 13 ∨ seekSuffix.length = 14 then
    bsLoop (fun h =>
        decide (c.walls.getD h 0 < beN (seekSuffix.take 8)) ||
          ((c.walls.getD h 0 == beN (seekSuffix.take 8)) &&
            decide (c.logicals.getD h 0 % 2 ^ 32 ≤ beN ((seekSuffix.drop 8).take 4))))
      index (seekSetBitGE c.rks (index + 1))
  else if seekSuffix.length = 9 then
    bsLoop (fun h =>
        decide (c.walls.getD h 0 < beN (seekSuffix.take 8)) ||
          ((c.walls.getD h 0 == beN (seekSuffix.take 8)) &&
            decide (c.logicals.getD h 0 % 2 ^ 32 ≤ 0)))
      index (seekSetBitGE c.rks (index + 1))
  else
    bsLoop (fun h => !(cmpL (c.untyped.getD h []) seekSuffix == .lt))
      index (seekSetBitGE c.rks (index + 1))

/-- `cockroachKeySeeker.SeekGE` (source lines 232-242): split the key, search
the user-key column, and on an exact user-key match refine with
`seekGEOnSuffix`. `boundRow` and `searchDir` are accepted and ignored, as in
the source. -/
def seekGE (c : CRCols) (key : List Nat) (boundRow searchDir : Int) : Nat × Bool :=
  let si := crdbSplit key
  let res := pfxSearch c.rks (key.take (si - 1))
  if res.2 then (seekGEOnSuffix c res.1 (key.drop si), true) else (res.1, false)

/-- `cockroachKeySeeker.MaterializeUserKey` (source lines 311-367), as the
byte string it produces for a row: user key, sentinel, then the untyped
suffix (when both MVCC fields are zero) or the inline MVCC rendering. The
4-byte field written before the length byte 13 is transcribed exactly as in
the source, which shifts `mvccWall` (not `mvccLogical`). -/
def materializeUserKey (c : CRCols) (row : Nat) : List Nat :=
  let rk := c.rks.getD row []
  let w := c.walls.getD row 0
  let lg := c.logicals.getD row 0 % 2 ^ 32
  if w = 0 ∧ lg = 0 then
    let unt := c.untyped.getD row []
    if unt = [] then rk ++ [0] else rk ++ [0] ++ unt
  else
    rk ++ [0] ++ be8 w ++ (if lg = 0 then [9] else be4 w ++ [13])

/-- `cockroachKeySeeker.IsLowerBound` (source lines 211-229), transcribed
branch by branch (the debug-invariants panic is elided). -/
def isLowerBound (c : CRCols) (k ss : List Nat) : Bool :=
  let d := decodeEngineKey k
  let v := crCompare (c.rks.getD 0 []) d.1
  if v ≠ .eq then v == .gt
  else if ss ≠ [] then !(crCompare ss (k.drop (d.1.length + 1)) == .lt)
  else if d.2.1 ≠ [] then !(crCompare (c.untyped.getD 0 []) d.2.1 == .lt)
  else
    let v2 := cmpN (c.walls.getD 0 0) d.2.2.1
    if v2 ≠ .eq then v2 == .gt
    else !(cmpN (c.logicals.getD 0 0 % 2 ^ 32) d.2.2.2 == .lt)

/-- State of `cockroachKeySeeker`: the reader reference, the four column
views, and the shared user-key slice. -/
structure CRSeeker where
  reader : Option CRCols
  rks : List (List Nat)
  walls : List Nat
  logicals : List Nat
  untyped : List (List Nat)
  sharedPfx : List Nat
  deriving Repr, DecidableEq

/-- The zero value of the seeker struct (`cockroachKeySeeker{}`). -/
def zeroSeeker : CRSeeker := ⟨none, [], [], [], [], []⟩

/-- Modelled from the spec: `PrefixBytes.SharedPrefix()` — the byte run
common to every user key of the block. -/
def sharedPfxOf (rks : List (List Nat)) : List Nat :=
  match rks with
  | [] => []
  | a :: rest => rest.foldl (fun acc s => acc.take (lcp acc s)) a

/-- `cockroachKeySeeker.Init` (source lines 197-205): bind the reader and the
four column views and extract the shared user-key slice. -/
def initSeeker (c : CRCols) : CRSeeker :=
  ⟨some c, c.rks, c.walls, c.logicals, c.untyped, sharedPfxOf c.rks⟩

/-- `cockroachKeySeeker.Release` (source lines 388-391): `*ks =
cockroachKeySeeker{}` before the struct re-enters the pool. -/
def releaseSeeker (_ : CRSeeker) : CRSeeker :=
  zeroSeeker

/-- Buffer operations performed by the materialization paths, in program
order: a slice-length extension (bounds-checked against capacity) or a raw
write at a byte offset (unsafe-pointer store / memmove start). -/
inductive BufOp where
  | ext (n : Nat)
  | wr (off : Nat)
  deriving Repr, DecidableEq

/-- Operation trace of `MaterializeUserKey`'s bare path (source lines
326-328): slice to `roachKeyLen+1`, then store the sentinel. -/
def barePathOps (rkLen : Nat) : List BufOp :=
  [.ext (rkLen + 1), .wr rkLen]

/-- Operation trace of `MaterializeUserKey`'s untyped path (source lines
330-338): slice first, then store the sentinel and memmove the suffix. -/
def untypedPathOps (rkLen uLen : Nat) : List BufOp :=
  [.ext (rkLen + 1 + uLen), .wr rkLen, .wr (rkLen + 1)]

/-- Operation trace of `MaterializeUserKey`'s MVCC path (source lines
341-366): sentinel and wall-time stores through raw pointers, then the
logical/length stores, and the slice extension only at the return. -/
def mvccPathOps (rkLen : Nat) (logicalZero : Bool) : List BufOp :=
  [.wr rkLen, .wr (rkLen + 1), .wr (rkLen + 2), .wr (rkLen + 3), .wr (rkLen + 4),
   .wr (rkLen + 5), .wr (rkLen + 6), .wr (rkLen + 7), .wr (rkLen + 8)] ++
    (if logicalZero then [.wr (rkLen + 9), .ext (rkLen + 10)]
     else [.wr (rkLen + 9), .wr (rkLen + 10), .wr (rkLen + 11), .wr (rkLen + 12),
           .wr (rkLen + 13), .ext (rkLen + 14)])

/-- Operation trace of `MaterializeUserKeyWithSyntheticSuffix` (source lines
370-385): slice first, then store the sentinel and memmove the suffix. -/
def synthPathOps (rkLen sLen : Nat) : List BufOp :=
  [.ext (rkLen + 1 + sLen), .wr rkLen, .wr (rkLen + 1)]

/-- Does every raw write beyond the user-key bytes come after a slice-length
extension? `seen` records whether an extension has occurred. -/
def extChk (rkLen : Nat) (seen : Bool) : List BufOp → Bool
  | [] => true
  | .ext _ :: rest => extChk rkLen true rest
  | .wr off :: rest => (decide (off < rkLen) || seen) && extChk rkLen seen rest

/-- The key list is sorted: every key is ≤ every later key under the engine
comparator. -/
def sortedB : List (List Nat) → Bool
  | [] => true
  | a :: rest => rest.all (fun b => !(crCompare a b == .gt)) && sortedB rest

/-- The row's suffix region is a non-empty MVCC timestamp (length 9 or 13). -/
def isMvccRow (k : List Nat) : Bool :=
  (regionOf k).length == 9 || (regionOf k).length == 13

/-- The row's suffix region is a non-empty untyped suffix (length not 0, 9
or 13). -/
def isUntypedRow (k : List Nat) : Bool :=
  !((regionOf k).length == 0) && !((regionOf k).length == 9) &&
    !((regionOf k).length == 13)

/-- Suffix-kind side condition for the amended seek-correctness claim: rows
sharing the query's user key must carry suffixes of the same kind the seek
suffix is dispatched to (MVCC for seek-suffix lengths 9/13, untyped for other
non-zero lengths; length 14 is excluded because `seekGEOnSuffix` parses it as
MVCC while the comparator orders it as untyped). -/
def runKindOK (ks : List (List Nat)) (q : List Nat) : Bool :=
  let n := (regionOf q).length
  if n = 0 then true
  else if n = 9 ∨ n = 13 then
    ks.all (fun k => !(rkOf k == rkOf q) || isMvccRow k)
  else if n = 14 then false
  else ks.all (fun k => !(rkOf k == rkOf q) || isUntypedRow k)

/-- Concrete MVCC engine key with wall time 1 and logical counter 2. -/
def cexKey1 : List Nat := [97, 0] ++ be8 1 ++ be4 2 ++ [13]

/-- Concrete sorted key list: a bare key and an MVCC key sharing its user
key. -/
def cexKeys3 : List (List Nat) := [[107, 0], [107, 0] ++ be8 200 ++ [9]]

/-- Concrete MVCC query with wall time 300 for `cexKeys3`. -/
def cexQuery3 : List Nat := [107, 0] ++ be8 300 ++ [9]

/-- Concrete block key with MVCC wall time 200. -/
def cexKey6 : List Nat := [107, 0] ++ be8 200 ++ [9]

/-- Concrete MVCC query with wall time 100 for the block of `cexKey6`. -/
def cexQuery6 : List Nat := [107, 0] ++ be8 100 ++ [9]

/-- Concrete block for the length-14 seek-suffix counterexample. -/
def cexBlk4 : CRCols := buildCols [[107, 0] ++ be8 5 ++ [9]]

/-- Concrete seek suffix of length 14 (wall time 6). -/
def cexS14 : List Nat := be8 6 ++ [0, 0, 0, 0, 0, 14]

/-- Concrete sorted two-row MVCC block (wall times 200 then 100). -/
def cexKeysW : List (List Nat) :=
  [[107, 0] ++ be8 200 ++ [9], [107, 0] ++ be8 100 ++ [9]]

/-- Concrete MVCC query with wall time 150 for `cexKeysW`. -/
def cexQueryW : List Nat := [107, 0] ++ be8 150 ++ [9]

/-! ## Basic lemmas -/

theorem take_rkOf (k : List Nat) : k.take (rkOf k).length = rkOf k := by
  unfold rkOf
  induction k with
  | nil => rfl
  | cons a as ih =>
    by_cases h : a = 0
    · simp [List.takeWhile, h]
    · simpa [List.takeWhile, h] using ih

theorem lcp_of_take (a b : List Nat) (h : a.take b.length = b) :
    lcp a b = b.length := by
  induction b generalizing a with
  | nil => cases a <;> simp [lcp]
  | cons b0 bs ih =>
    cases a with
    | nil => simp at h
    | cons a0 as =>
      simp only [List.length_cons, List.take_succ_cons, List.cons.injEq] at h
      simp [lcp, h.1, ih as h.2]

/-! ## Claim theorems -/

/-- C1: the round-trip property fails on the code. For the well-formed MVCC
key with wall time 1 and logical counter 2, the writer's `MaterializeKey`
reproduces the key but the seeker's `MaterializeUserKey` does not (it writes
the low 32 bits of the wall time where the logical counter belongs). -/
theorem roundTrip_bug :
    wfKey cexKey1 = true ∧
    materializeKey (buildWriter [cexKey1]) 0 = cexKey1 ∧
    materializeUserKey (buildCols [cexKey1]) 0 ≠ cexKey1 := by
  decide

/-- C2: evaluated on the row with wall time 1 and logical counter 2, the MVCC
materialization emits the 4 big-endian bytes of the wall time (`be4 1`)
before the length byte 13, not the logical counter's bytes (`be4 2`) as the
claim states. -/
theorem materializeMVCC_bug :
    materializeUserKey (buildCols [cexKey1]) 0 = [97, 0] ++ be8 1 ++ be4 1 ++ [13] ∧
    ([97, 0] ++ be8 1 ++ be4 1 ++ [13] : List Nat) ≠ [97, 0] ++ be8 1 ++ be4 2 ++ [13] := by
  decide

/-- C3 counterexample: on the sorted well-formed block [bare "k", "k"@200]
and the query "k"@300, `SeekGE` returns row 0, whose key is strictly below
the query, even though row 1's key is ≥ the query. -/
theorem seekGE_cex :
    cexKeys3.all wfKey = true ∧ sortedB cexKeys3 = true ∧ wfKey cexQuery3 = true ∧
    (seekGE (buildCols cexKeys3) cexQuery3 0 0).1 = 0 ∧
    crCompare (cexKeys3.getD 0 []) cexQuery3 = .lt ∧
    crCompare (cexKeys3.getD 1 []) cexQuery3 = .gt := by
  decide

/-- C4 counterexample: a seek suffix of length 14 is not resolved by the
ascending untyped binary search — `seekGEOnSuffix` parses it as an MVCC
timestamp and returns a different row. -/
theorem seekSuffix_len14_cex :
    cexS14.length = 14 ∧
    seekGEOnSuffix cexBlk4 0 cexS14 = 0 ∧
    untSearch cexBlk4 0 (seekSetBitGE cexBlk4.rks 1) cexS14 = 1 := by
  decide

/-- C4 amended: `seekGEOnSuffix` classifies the seek suffix by its length
alone — 0 returns the index; 9, 13 and 14 run the MVCC-descending search
(wall from the first 8 bytes; logical from bytes 8..12 for lengths 13 and 14,
zero for length 9); every other length runs the ascending untyped search. -/
theorem seekGEOnSuffix_dispatch (c : CRCols) (idx : Nat) (s : List Nat) :
    (s.length = 0 → seekGEOnSuffix c idx s = idx) ∧
    (s.length = 9 → seekGEOnSuffix c idx s =
      mvccSearch c idx (seekSetBitGE c.rks (idx + 1)) (beN (s.take 8)) 0) ∧
    (s.length = 13 ∨ s.length = 14 → seekGEOnSuffix c idx s =
      mvccSearch c idx (seekSetBitGE c.rks (idx + 1)) (beN (s.take 8))
        (beN ((s.drop 8).take 4))) ∧
    (¬(s.length = 0 ∨ s.length = 9 ∨ s.length = 13 ∨ s.length = 14) →
      seekGEOnSuffix c idx s = untSearch c idx (seekSetBitGE c.rks (idx + 1)) s) := by
  refine ⟨?_, ?_, ?_, ?_⟩ <;> intro h
  · simp [seekGEOnSuffix, h]
  · simp [seekGEOnSuffix, h, mvccSearch]
  · rcases h with h | h <;> simp [seekGEOnSuffix, h, mvccSearch]
  · push_neg at h
    obtain ⟨h0, h9, h13, h14⟩ := h
    simp [seekGEOnSuffix, h0, h9, h13, h14, untSearch]

/-- C4 amended, witnessed at a concrete length-13 suffix. -/
theorem seekGEOnSuffix_dispatch_w :
    seekGEOnSuffix cexBlk4 0 [0, 0, 0, 0, 0, 0, 0, 5, 0, 0, 0, 2, 13] =
      mvccSearch cexBlk4 0 (seekSetBitGE cexBlk4.rks 1)
        (beN ([0, 0, 0, 0, 0, 0, 0, 5, 0, 0, 0, 2, 13].take 8))
        (beN (([0, 0, 0, 0, 0, 0, 0, 5, 0, 0, 0, 2, 13].drop 8).take 4)) :=
  (seekGEOnSuffix_dispatch cexBlk4 0 [0, 0, 0, 0, 0, 0, 0, 5, 0, 0, 0, 2, 13]).2.2.1
    (Or.inl (by decide))

/-- C6: `IsLowerBound` contradicts its own documented contract
(`Compare(firstUserKey, k) ≥ 0`). With first key "k"@200 and query "k"@100
the first key is strictly below the query, yet the code returns true: its
MVCC wall-time comparison uses the sign of ascending, not descending,
timestamp order. -/
theorem isLowerBound_bug :
    wfKey cexKey6 = true ∧ wfKey cexQuery6 = true ∧
    isLowerBound (buildCols [cexKey6]) cexQuery6 [] = true ∧
    crCompare cexKey6 cexQuery6 = .lt := by
  decide

/-- C7 counterexample: the MVCC path of `MaterializeUserKey` performs raw
writes past the user-key bytes before any slice-length extension. -/
theorem extendFirst_cex : extChk 3 false (mvccPathOps 3 true) = false := by
  decide

/-- C7 amended: the bare, untyped and synthetic-suffix materialization paths
extend the slice length (bounds-checking capacity) before writing past the
user key, but the MVCC path of `MaterializeUserKey` stores the sentinel,
wall-time, logical and length bytes through raw pointers before the final
extension. -/
theorem materialize_extend_order (rkLen uLen sLen : Nat) (lz : Bool) :
    extChk rkLen false (barePathOps rkLen) = true ∧
    extChk rkLen false (untypedPathOps rkLen uLen) = true ∧
    extChk rkLen false (synthPathOps rkLen sLen) = true ∧
    extChk rkLen false (mvccPathOps rkLen lz) = false := by
  cases lz <;>
    simp [extChk, barePathOps, untypedPathOps, synthPathOps, mvccPathOps,
      Nat.lt_irrefl]

/-- C8: `Release` resets the seeker to the struct zero value: the reader
reference, all four column views and the shared user-key slice are cleared
before the instance re-enters the pool. -/
theorem release_clears (s : CRSeeker) :
    releaseSeeker s = zeroSeeker ∧
    (releaseSeeker s).reader = none ∧ (releaseSeeker s).rks = [] ∧
    (releaseSeeker s).walls = [] ∧ (releaseSeeker s).logicals = [] ∧
    (releaseSeeker s).untyped = [] ∧ (releaseSeeker s).sharedPfx = [] :=
  ⟨rfl, rfl, rfl, rfl, rfl, rfl, rfl⟩

/-- C9: `SeekGE` ignores its advisory `boundRow` and `searchDir` arguments:
the result is the same for all values of the two parameters. -/
theorem seekGE_ignores_hints (c : CRCols) (key : List Nat)
    (b1 d1 b2 d2 : Int) : seekGE c key b1 d1 = seekGE c key b2 d2 :=
  rfl

/-- C10: whenever the new key's user key (sentinel excluded) is a leading
substring of the previous row's user key — including a strictly longer
previous user key — `ComparePrev` reports `common_prefix_len` equal to the
new key's full user-key length including the sentinel, and derives
`user_key_cmp` from `CompareSuffixes` on the new key's suffix region and the
stored previous suffix, not from the user keys. -/
theorem comparePrev_leading (w : CRWriter) (key : List Nat)
    (hne : w.rks ≠ [])
    (hlead : (w.rks.getLastD []).take (rkOf key).length = rkOf key) :
    comparePrev w key =
      ⟨(rkOf key).length + 1, (rkOf key).length + 1,
        ordInt (crdbCompareSuffixes (regionOf key) w.prevSuffix)⟩ := by
  unfold comparePrev crdbSplit
  simp only [if_neg hne]
  have h1 : (rkOf key).length + 1 - 1 = (rkOf key).length := by omega
  rw [h1, take_rkOf, lcp_of_take _ _ hlead]
  simp [regionOf]

/-- C10 witnessed: previous user key "ab", new key "a" followed by the bare
sentinel — the common length is the full new user key plus sentinel and the
comparison comes from the (equal, empty) suffix regions. -/
theorem comparePrev_leading_w :
    comparePrev (buildWriter [[97, 98, 0]]) [97, 0] = ⟨2, 2, 0⟩ := by
  have h := comparePrev_leading (buildWriter [[97, 98, 0]]) [97, 0]
    (by decide) (by decide)
  exact h.trans (by decide)

/-! ## Comparison lemmas -/

theorem cmpN_of_lt {a b : Nat} (h : a < b) : cmpN a b = .lt := by
  simp [cmpN, h]

theorem cmpN_of_eq {a b : Nat} (h : a = b) : cmpN a b = .eq := by
  simp [cmpN, h]

theorem cmpN_of_gt {a b : Nat} (h : b < a) : cmpN a b = .gt := by
  unfold cmpN
  rw [if_neg (by omega), if_neg (by omega)]

theorem cmpN_self (a : Nat) : cmpN a a = .eq := cmpN_of_eq rfl

theorem cmpN_eq_iff {a b : Nat} : cmpN a b = .eq ↔ a = b := by
  constructor
  · intro h
    rcases Nat.lt_trichotomy a b with h' | h' | h'
    · rw [cmpN_of_lt h'] at h; exact absurd h (by simp)
    · exact h'
    · rw [cmpN_of_gt h'] at h; exact absurd h (by simp)
  · exact cmpN_of_eq

theorem cmpN_lt_iff {a b : Nat} : cmpN a b = .lt ↔ a < b := by
  constructor
  · intro h
    rcases Nat.lt_trichotomy a b with h' | h' | h'
    · exact h'
    · rw [cmpN_of_eq h'] at h; exact absurd h (by simp)
    · rw [cmpN_of_gt h'] at h; exact absurd h (by simp)
  · exact cmpN_of_lt

theorem cmpN_gt_iff {a b : Nat} : cmpN a b = .gt ↔ b < a := by
  constructor
  · intro h
    rcases Nat.lt_trichotomy a b with h' | h' | h'
    · rw [cmpN_of_lt h'] at h; exact absurd h (by simp)
    · rw [cmpN_of_eq h'] at h; exact absurd h (by simp)
    · exact h'
  · exact cmpN_of_gt

theorem cmpL_cons_lt {x y : Nat} {xs ys : List Nat} (h : x < y) :
    cmpL (x :: xs) (y :: ys) = .lt := by
  simp [cmpL, cmpN_of_lt h]

theorem cmpL_cons_gt {x y : Nat} {xs ys : List Nat} (h : y < x) :
    cmpL (x :: xs) (y :: ys) = .gt := by
  simp [cmpL, cmpN_of_gt h]

theorem cmpL_cons_head_eq {x y : Nat} {xs ys : List Nat} (h : x = y) :
    cmpL (x :: xs) (y :: ys) = cmpL xs ys := by
  simp [cmpL, cmpN_of_eq h]

theorem cmpL_self (a : List Nat) : cmpL a a = .eq := by
  induction a with
  | nil => rfl
  | cons x xs ih => rw [cmpL_cons_head_eq rfl]; exact ih

theorem cmpL_eq_iff {a b : List Nat} : cmpL a b = .eq ↔ a = b := by
  constructor
  · intro h
    induction a generalizing b with
    | nil => cases b with
      | nil => rfl
      | cons y ys => exact absurd h (by simp [cmpL])
    | cons x xs ih =>
      cases b with
      | nil => exact absurd h (by simp [cmpL])
      | cons y ys =>
        rcases Nat.lt_trichotomy x y with h' | h' | h'
        · rw [cmpL_cons_lt h'] at h; exact absurd h (by simp)
        · rw [cmpL_cons_head_eq h'] at h
          rw [h', ih h]
        · rw [cmpL_cons_gt h'] at h; exact absurd h (by simp)
  · intro h; rw [h]; exact cmpL_self b

theorem cmpL_swap (a b : List Nat) : cmpL b a = (cmpL a b).swap := by
  induction a generalizing b with
  | nil => cases b <;> simp [cmpL, Ordering.swap]
  | cons x xs ih =>
    cases b with
    | nil => simp [cmpL, Ordering.swap]
    | cons y ys =>
      rcases Nat.lt_trichotomy x y with h' | h' | h'
      · rw [cmpL_cons_lt h', cmpL_cons_gt h']; rfl
      · rw [cmpL_cons_head_eq h', cmpL_cons_head_eq h'.symm]; exact ih ys
      · rw [cmpL_cons_gt h', cmpL_cons_lt h']; rfl

theorem cmpL_gt_iff_swap {a b : List Nat} : cmpL a b = .gt ↔ cmpL b a = .lt := by
  rw [cmpL_swap b a]
  rcases h : cmpL b a with h' | h' | h' <;> simp [Ordering.swap]

theorem cmpL_trans_lt {a b c : List Nat} (h1 : cmpL a b = .lt)
    (h2 : cmpL b c = .lt) : cmpL a c = .lt := by
  induction a generalizing b c with
  | nil =>
    cases b with
    | nil => exact absurd h1 (by simp [cmpL])
    | cons y ys =>
      cases c with
      | nil => exact absurd h2 (by simp [cmpL])
      | cons z zs => simp [cmpL]
  | cons x xs ih =>
    cases b with
    | nil => exact absurd h1 (by simp [cmpL])
    | cons y ys =>
      cases c with
      | nil => exact absurd h2 (by simp [cmpL])
      | cons z zs =>
        rcases Nat.lt_trichotomy x y with hxy | hxy | hxy
        · rcases Nat.lt_trichotomy y z with hyz | hyz | hyz
          · exact cmpL_cons_lt (Nat.lt_trans hxy hyz)
          · exact cmpL_cons_lt (hyz ▸ hxy)
          · rw [cmpL_cons_gt hyz] at h2; exact absurd h2 (by simp)
        · rcases Nat.lt_trichotomy y z with hyz | hyz | hyz
          · exact cmpL_cons_lt (hxy ▸ hyz)
          · rw [cmpL_cons_head_eq hxy] at h1
            rw [cmpL_cons_head_eq hyz] at h2
            rw [cmpL_cons_head_eq (hxy.trans hyz)]
            exact ih h1 h2
          · rw [cmpL_cons_gt hyz] at h2; exact absurd h2 (by simp)
        · rw [cmpL_cons_gt hxy] at h1; exact absurd h1 (by simp)

theorem cmpL_lt_of_lt_of_ne_gt {a b c : List Nat} (h1 : cmpL a b = .lt)
    (h2 : cmpL b c ≠ .gt) : cmpL a c = .lt := by
  rcases ho : cmpL b c with h | h | h
  · exact cmpL_trans_lt h1 ho
  · rwa [← cmpL_eq_iff.mp ho]
  · exact absurd ho h2

theorem cmpL_lt_of_ne_gt_of_lt {a b c : List Nat} (h1 : cmpL a b ≠ .gt)
    (h2 : cmpL b c = .lt) : cmpL a c = .lt := by
  rcases ho : cmpL a b with h | h | h
  · exact cmpL_trans_lt ho h2
  · rwa [cmpL_eq_iff.mp ho]
  · exact absurd ho h1

theorem cmpL_take_gt {a : List Nat} {n : Nat} (h : n < a.length) :
    cmpL a (a.take n) = .gt := by
  induction a generalizing n with
  | nil => simp at h
  | cons x xs ih =>
    cases n with
    | zero => simp [cmpL]
    | succ m =>
      rw [List.take_succ_cons, cmpL_cons_head_eq rfl]
      exact ih (by simpa using h)

theorem cmpPair_lt_iff {p q : Nat × Nat} :
    cmpPair p q = .lt ↔ p.1 < q.1 ∨ (p.1 = q.1 ∧ p.2 < q.2) := by
  unfold cmpPair
  rcases Nat.lt_trichotomy p.1 q.1 with h | h | h
  · rw [cmpN_of_lt h]; simp [h]
  · rw [cmpN_of_eq h]; simp [h, cmpN_lt_iff]
  · rw [cmpN_of_gt h]
    constructor
    · intro hc; exact absurd hc (by simp)
    · intro hc; omega

theorem cmpPair_gt_iff {p q : Nat × Nat} :
    cmpPair p q = .gt ↔ q.1 < p.1 ∨ (p.1 = q.1 ∧ q.2 < p.2) := by
  unfold cmpPair
  rcases Nat.lt_trichotomy p.1 q.1 with h | h | h
  · rw [cmpN_of_lt h]
    constructor
    · intro hc; exact absurd hc (by simp)
    · intro hc; omega
  · rw [cmpN_of_eq h]; simp [h, cmpN_gt_iff]
  · rw [cmpN_of_gt h]
    constructor
    · intro _; exact Or.inl h
    · intro _; rfl

/-! ## lcp and list-access lemmas -/

theorem lcp_le_left (a b : List Nat) : lcp a b ≤ a.length := by
  induction a generalizing b with
  | nil => cases b <;> simp [lcp]
  | cons x xs ih =>
    cases b with
    | nil => simp [lcp]
    | cons y ys =>
      by_cases h : x = y
      · simpa [lcp, h] using ih ys
      · simp [lcp, h]

theorem lcp_le_right (a b : List Nat) : lcp a b ≤ b.length := by
  induction a generalizing b with
  | nil => cases b <;> simp [lcp]
  | cons x xs ih =>
    cases b with
    | nil => simp [lcp]
    | cons y ys =>
      by_cases h : x = y
      · simpa [lcp, h] using ih ys
      · simp [lcp, h]

theorem take_lcp_eq (a b : List Nat) : a.take (lcp a b) = b.take (lcp a b) := by
  induction a generalizing b with
  | nil => cases b <;> simp [lcp]
  | cons x xs ih =>
    cases b with
    | nil => simp [lcp]
    | cons y ys =>
      by_cases h : x = y
      · simp [lcp, h, ih ys]
      · simp [lcp, h]

theorem getD_lcp_ne (a b : List Nat) (ha : lcp a b < a.length)
    (hb : lcp a b < b.length) : a.getD (lcp a b) 0 ≠ b.getD (lcp a b) 0 := by
  induction a generalizing b with
  | nil => simp at ha
  | cons x xs ih =>
    cases b with
    | nil => simp at hb
    | cons y ys =>
      by_cases h : x = y
      · have ha' : lcp xs ys < xs.length := by
          simpa [lcp, h] using ha
        have hb' : lcp xs ys < ys.length := by
          simpa [lcp, h] using hb
        simpa [lcp, h] using ih ys ha' hb'
      · simpa [lcp, h] using h

theorem take_of_lcp_right (a b : List Nat) (h : lcp a b = b.length) :
    a.take b.length = b := by
  rw [← h]
  have heq := take_lcp_eq a b
  rw [heq, h, List.take_length]

theorem take_of_lcp_left (a b : List Nat) (h : lcp a b = a.length) :
    b.take a.length = a := by
  rw [← h]
  have heq := take_lcp_eq a b
  rw [← heq, h, List.take_length]

theorem getD_take_lt {l : List Nat} {n i : Nat} (h : i < n) (d : Nat) :
    (l.take n).getD i d = l.getD i d := by
  induction l generalizing n i with
  | nil => simp
  | cons x xs ih =>
    cases n with
    | zero => omega
    | succ m =>
      cases i with
      | zero => simp
      | succ j => simpa using ih (by omega)

theorem cmpL_diverge {a b : List Nat} {n : Nat}
    (htake : a.take n = b.take n) (ha : n < a.length) (hb : n < b.length)
    (hne : a.getD n 0 ≠ b.getD n 0) :
    cmpL a b = cmpN (a.getD n 0) (b.getD n 0) := by
  induction n generalizing a b with
  | zero =>
    cases a with
    | nil => simp at ha
    | cons x xs =>
      cases b with
      | nil => simp at hb
      | cons y ys =>
        simp only [List.getD_cons_zero] at hne ⊢
        rcases Nat.lt_trichotomy x y with h | h | h
        · rw [cmpL_cons_lt h, cmpN_of_lt h]
        · exact absurd h hne
        · rw [cmpL_cons_gt h, cmpN_of_gt h]
  | succ m ih =>
    cases a with
    | nil => simp at ha
    | cons x xs =>
      cases b with
      | nil => simp at hb
      | cons y ys =>
        simp only [List.take_succ_cons, List.cons.injEq] at htake
        rw [cmpL_cons_head_eq htake.1]
        simp only [List.getD_cons_succ] at hne ⊢
        exact ih htake.2 (by simpa using ha) (by simpa using hb) hne

theorem getD_map_rk (l : List (List Nat)) (f : List Nat → List Nat) (i : Nat)
    (h : i < l.length) : (l.map f).getD i [] = f (l.getD i []) := by
  induction l generalizing i with
  | nil => simp at h
  | cons x xs ih =>
    cases i with
    | zero => simp
    | succ j => simpa using ih j (by simpa using h)

theorem getD_map_nat (l : List (List Nat)) (f : List Nat → Nat) (i : Nat)
    (h : i < l.length) : (l.map f).getD i 0 = f (l.getD i []) := by
  induction l generalizing i with
  | nil => simp at h
  | cons x xs ih =>
    cases i with
    | zero => simp
    | succ j => simpa using ih j (by simpa using h)

theorem getD_mem_of_lt {l : List (List Nat)} {i : Nat} (h : i < l.length) :
    l.getD i [] ∈ l := by
  induction l generalizing i with
  | nil => simp at h
  | cons x xs ih =>
    cases i with
    | zero => simp
    | succ j => exact List.mem_cons_of_mem x (ih (by simpa using h))

theorem getLastD_map_rk (l : List (List Nat)) (f : List Nat → List Nat)
    (hf : f [] = []) : (l.map f).getLastD [] = f (l.getLastD []) := by
  have key : ∀ (m : List (List Nat)) (a : List Nat),
      (m.map f).getLastD (f a) = f (m.getLastD a) := by
    intro m
    induction m with
    | nil => intro a; rfl
    | cons x xs ih =>
      intro a
      rw [List.map_cons, List.getLastD_cons, List.getLastD_cons]
      exact ih x
  have := key l []
  rwa [hf] at this

theorem getLastD_default_irrel (l : List (List Nat)) (h : l ≠ [])
    (d1 d2 : List Nat) : l.getLastD d1 = l.getLastD d2 := by
  cases l with
  | nil => exact absurd rfl h
  | cons x xs =>
    induction xs generalizing x with
    | nil => rfl
    | cons y ys ih => simpa [List.getLastD_cons] using ih y

/-! ## firstIdx lemmas -/

theorem firstIdx_le {p : List Nat → Bool} (l : List (List Nat)) :
    firstIdx p l ≤ l.length := by
  induction l with
  | nil => simp [firstIdx]
  | cons x xs ih =>
    rcases hp : p x with h | h
    · simp only [firstIdx, hp, List.length_cons]
      simp only [Bool.false_eq_true, if_false]
      omega
    · simp [firstIdx, hp]

theorem firstIdx_getD_false {p : List Nat → Bool} {l : List (List Nat)} {i : Nat}
    (h : i < firstIdx p l) : p (l.getD i []) = false := by
  induction l generalizing i with
  | nil => simp [firstIdx] at h
  | cons x xs ih =>
    rcases hp : p x with h' | h'
    · cases i with
      | zero => simpa using hp
      | succ j =>
        simp only [firstIdx, hp, Bool.false_eq_true, if_false] at h
        simpa using ih (by omega)
    · simp [firstIdx, hp] at h

theorem firstIdx_getD_true {p : List Nat → Bool} {l : List (List Nat)}
    (h : firstIdx p l < l.length) : p (l.getD (firstIdx p l) []) = true := by
  induction l with
  | nil => simp [firstIdx] at h
  | cons x xs ih =>
    rcases hp : p x with h' | h'
    · simp only [firstIdx, hp, Bool.false_eq_true, if_false, List.length_cons] at h ⊢
      simpa using ih (by omega)
    · simpa [firstIdx, hp] using hp

/-! ## Bit-scan and binary-search specifications -/

theorem seekSetBitGEF_spec (fuel : Nat) :
    ∀ (rks : List (List Nat)) (i : Nat), rks.length - i ≤ fuel →
      i ≤ rks.length →
      i ≤ seekSetBitGEF fuel rks i ∧ seekSetBitGEF fuel rks i ≤ rks.length ∧
        (∀ j, i ≤ j → j < seekSetBitGEF fuel rks i → bitAt rks j = false) ∧
        (seekSetBitGEF fuel rks i < rks.length →
          bitAt rks (seekSetBitGEF fuel rks i) = true) := by
  induction fuel with
  | zero =>
    intro rks i hf hi
    have : i = rks.length := by omega
    subst this
    refine ⟨le_refl _, le_refl _, ?_, ?_⟩
    · intro j h1 h2; simp [seekSetBitGEF] at h2; omega
    · intro h; simp [seekSetBitGEF] at h
  | succ n ih =>
    intro rks i hf hi
    by_cases hlt : i < rks.length
    · by_cases hbit : bitAt rks i
      · simp only [seekSetBitGEF, if_pos hlt, if_pos hbit]
        exact ⟨le_refl _, by omega, fun j h1 h2 => by omega, fun _ => hbit⟩
      · simp only [seekSetBitGEF, if_pos hlt, if_neg hbit]
        obtain ⟨r1, r2, r3, r4⟩ := ih rks (i + 1) (by omega) (by omega)
        refine ⟨by omega, r2, ?_, r4⟩
        intro j h1 h2
        rcases Nat.eq_or_lt_of_le h1 with he | hj
        · rw [← he]; simpa using hbit
        · exact r3 j hj h2
    · simp only [seekSetBitGEF, if_neg hlt]
      refine ⟨by omega, le_refl _, ?_, ?_⟩
      · intro j h1 h2; omega
      · intro h; omega

theorem seekSetBitGE_spec (rks : List (List Nat)) (i : Nat)
    (hi : i ≤ rks.length) :
    i ≤ seekSetBitGE rks i ∧ seekSetBitGE rks i ≤ rks.length ∧
      (∀ j, i ≤ j → j < seekSetBitGE rks i → bitAt rks j = false) ∧
      (seekSetBitGE rks i < rks.length →
        bitAt rks (seekSetBitGE rks i) = true) :=
  seekSetBitGEF_spec (rks.length - i) rks i (le_refl _) hi

theorem bsLoopF_spec (fuel : Nat) :
    ∀ (p : Nat → Bool) (l u : Nat), u - l ≤ fuel → l ≤ u →
      (∀ i j, l ≤ i → i ≤ j → j < u → p i = true → p j = true) →
      l ≤ bsLoopF fuel p l u ∧ bsLoopF fuel p l u ≤ u ∧
        (∀ i, l ≤ i → i < bsLoopF fuel p l u → p i = false) ∧
        (bsLoopF fuel p l u < u → p (bsLoopF fuel p l u) = true) := by
  induction fuel with
  | zero =>
    intro p l u hf hlu _
    have : l = u := by omega
    subst this
    simp only [bsLoopF]
    exact ⟨le_refl _, le_refl _, fun i h1 h2 => by omega, fun h => by omega⟩
  | succ n ih =>
    intro p l u hf hlu hmono
    by_cases hlt : l < u
    · have hm1 : l ≤ (l + u) / 2 := by omega
      have hm2 : (l + u) / 2 < u := by omega
      by_cases hp : p ((l + u) / 2)
      · simp only [bsLoopF, if_pos hlt, if_pos hp]
        obtain ⟨r1, r2, r3, r4⟩ := ih p l ((l + u) / 2) (by omega) hm1
          (fun i j h1 h2 h3 h4 => hmono i j h1 h2 (by omega) h4)
        refine ⟨r1, by omega, r3, ?_⟩
        intro _
        rcases Nat.eq_or_lt_of_le r2 with he | hr
        · rw [he]; exact hp
        · exact r4 hr
      · simp only [bsLoopF, if_pos hlt, if_neg hp]
        obtain ⟨r1, r2, r3, r4⟩ := ih p ((l + u) / 2 + 1) u (by omega) (by omega)
          (fun i j h1 h2 h3 h4 => hmono i j (by omega) h2 h3 h4)
        refine ⟨by omega, r2, ?_, r4⟩
        intro i h1 h2
        by_cases him : i ≤ (l + u) / 2
        · rcases hpi : p i with h | h
          · rfl
          · have := hmono i ((l + u) / 2) h1 him hm2 hpi
            exact absurd this (by simp [hp])
        · exact r3 i (by omega) h2
    · simp only [bsLoopF, if_neg hlt]
      exact ⟨le_refl _, by omega, fun i h1 h2 => by omega, fun h => by omega⟩

theorem bsLoop_spec (p : Nat → Bool) (l u : Nat) (hlu : l ≤ u)
    (hmono : ∀ i j, l ≤ i → i ≤ j → j < u → p i = true → p j = true) :
    l ≤ bsLoop p l u ∧ bsLoop p l u ≤ u ∧
      (∀ i, l ≤ i → i < bsLoop p l u → p i = false) ∧
      (bsLoop p l u < u → p (bsLoop p l u) = true) :=
  bsLoopF_spec (u - l) p l u (le_refl _) hlu hmono

/-! ## Decode, writer and block lemmas -/

theorem decode_fst (k : List Nat) : (decodeEngineKey k).1 = rkOf k := by
  simp only [decodeEngineKey]
  split_ifs <;> rfl

theorem foldl_writeKey_rks (ks : List (List Nat)) :
    ∀ w : CRWriter, (ks.foldl writeKey w).rks = w.rks ++ ks.map rkOf := by
  induction ks with
  | nil => intro w; simp
  | cons k rest ih =>
    intro w
    simp only [List.foldl_cons, List.map_cons]
    rw [ih (writeKey w k)]
    simp [writeKey, decode_fst]

theorem foldl_writeKey_walls (ks : List (List Nat)) :
    ∀ w : CRWriter, (ks.foldl writeKey w).walls = w.walls ++ ks.map wallOf := by
  induction ks with
  | nil => intro w; simp
  | cons k rest ih =>
    intro w
    simp only [List.foldl_cons, List.map_cons]
    rw [ih (writeKey w k)]
    simp [writeKey, wallOf]

theorem foldl_writeKey_logicals (ks : List (List Nat)) :
    ∀ w : CRWriter, (ks.foldl writeKey w).logicals = w.logicals ++ ks.map logOf := by
  induction ks with
  | nil => intro w; simp
  | cons k rest ih =>
    intro w
    simp only [List.foldl_cons, List.map_cons]
    rw [ih (writeKey w k)]
    simp [writeKey, logOf]

theorem foldl_writeKey_untyped (ks : List (List Nat)) :
    ∀ w : CRWriter, (ks.foldl writeKey w).untyped = w.untyped ++ ks.map untOf := by
  induction ks with
  | nil => intro w; simp
  | cons k rest ih =>
    intro w
    simp only [List.foldl_cons, List.map_cons]
    rw [ih (writeKey w k)]
    simp [writeKey, untOf]

theorem foldl_writeKey_prevSuffix (ks : List (List Nat)) :
    ∀ w : CRWriter, ks ≠ [] →
      (ks.foldl writeKey w).prevSuffix = regionOf (ks.getLastD []) := by
  induction ks with
  | nil => intro w h; exact absurd rfl h
  | cons k rest ih =>
    intro w _
    cases hrest : rest with
    | nil => rfl
    | cons r rs =>
      have hne : rest ≠ [] := by rw [hrest]; simp
      rw [← hrest]
      simp only [List.foldl_cons]
      rw [ih (writeKey w k) hne, List.getLastD_cons]
      congr 1
      rw [hrest]
      exact getLastD_default_irrel (r :: rs) (by simp) k []

theorem buildCols_rks (ks : List (List Nat)) : (buildCols ks).rks = ks.map rkOf := by
  simpa [buildCols, colsOf, buildWriter, emptyWriter] using
    foldl_writeKey_rks ks emptyWriter

theorem buildCols_walls (ks : List (List Nat)) :
    (buildCols ks).walls = ks.map wallOf := by
  simpa [buildCols, colsOf, buildWriter, emptyWriter] using
    foldl_writeKey_walls ks emptyWriter

theorem buildCols_logicals (ks : List (List Nat)) :
    (buildCols ks).logicals = ks.map logOf := by
  simpa [buildCols, colsOf, buildWriter, emptyWriter] using
    foldl_writeKey_logicals ks emptyWriter

theorem buildCols_untyped (ks : List (List Nat)) :
    (buildCols ks).untyped = ks.map untOf := by
  simpa [buildCols, colsOf, buildWriter, emptyWriter] using
    foldl_writeKey_untyped ks emptyWriter

/-! ## Well-formedness consequences -/

theorem wf_parts {k : List Nat} (h : wfKey k = true) :
    k = rkOf k ++ 0 :: regionOf k ∧ (∀ b ∈ k, b < 256) ∧
      (regionOf k = [] ∨
        ((regionOf k).getLastD 0 = (regionOf k).length ∧ 2 ≤ (regionOf k).length)) := by
  simp only [wfKey, Bool.and_eq_true, beq_iff_eq, Bool.or_eq_true,
    List.all_eq_true, decide_eq_true_eq] at h
  exact ⟨h.1.1, h.1.2, h.2⟩

theorem foldl_be_lt (l : List Nat) :
    ∀ acc : Nat, (∀ b ∈ l, b < 256) →
      List.foldl (fun a b => a * 256 + b) acc l < (acc + 1) * 256 ^ l.length := by
  induction l with
  | nil => intro acc _; simpa using Nat.lt_succ_self acc
  | cons b t ih =>
    intro acc hb
    have hb0 : b < 256 := hb b (by simp)
    have ht : ∀ x ∈ t, x < 256 := fun x hx => hb x (by simp [hx])
    have h1 := ih (acc * 256 + b) ht
    have h2 : (acc * 256 + b + 1) * 256 ^ t.length ≤ (acc + 1) * 256 ^ (t.length + 1) := by
      have hc : acc * 256 + b + 1 ≤ (acc + 1) * 256 := by omega
      calc (acc * 256 + b + 1) * 256 ^ t.length
          ≤ ((acc + 1) * 256) * 256 ^ t.length := Nat.mul_le_mul_right _ hc
        _ = (acc + 1) * 256 ^ (t.length + 1) := by ring
    simp only [List.foldl_cons, List.length_cons]
    exact Nat.lt_of_lt_of_le h1 h2

theorem beN_lt_pow (l : List Nat) (h : ∀ b ∈ l, b < 256) :
    beN l < 256 ^ l.length := by
  have := foldl_be_lt l 0 h
  simpa [beN] using this

theorem logOf_lt32 {k : List Nat} (h : wfKey k = true) : logOf k < 2 ^ 32 := by
  simp only [logOf, decodeEngineKey]
  split_ifs with h9 h13 h0
  · simp
  · simp only []
    have hlen : (((regionOf k).drop 8).take 4).length = 4 := by
      simp [List.length_take, List.length_drop, h13]
    have hbytes : ∀ b ∈ ((regionOf k).drop 8).take 4, b < 256 := by
      intro b hb
      have hb1 : b ∈ (regionOf k).drop 8 := List.mem_of_mem_take hb
      have hb2 : b ∈ regionOf k := List.mem_of_mem_drop hb1
      have hb3 : b ∈ k := by
        have hsh := (wf_parts h).1
        rw [hsh]
        simp only [regionOf] at hb2 ⊢
        exact List.mem_append_right _ (List.mem_cons_of_mem 0 hb2)
      exact (wf_parts h).2.1 b hb3
    have := beN_lt_pow _ hbytes
    rw [hlen] at this
    calc beN (((regionOf k).drop 8).take 4) < 256 ^ 4 := this
      _ = 2 ^ 32 := by norm_num
  · simp only []
    norm_num
  · simp only []
    norm_num

/-! ## Comparator structure lemmas -/

theorem crCompare_of_rk_lt {a b : List Nat} (h : cmpL (rkOf a) (rkOf b) = .lt) :
    crCompare a b = .lt := by
  unfold crCompare
  rw [h]

theorem crCompare_of_rk_gt {a b : List Nat} (h : cmpL (rkOf a) (rkOf b) = .gt) :
    crCompare a b = .gt := by
  unfold crCompare
  rw [h]

theorem crCompare_of_rk_eq {a b : List Nat} (h : cmpL (rkOf a) (rkOf b) = .eq) :
    crCompare a b = crdbCompareSuffixes (regionOf a) (regionOf b) := by
  unfold crCompare
  rw [h]

theorem rk_ne_gt_of_crCompare {a b : List Nat} (h : crCompare a b ≠ .gt) :
    cmpL (rkOf a) (rkOf b) ≠ .gt :=
  fun hc => h (crCompare_of_rk_gt hc)

theorem suffix_ne_gt_of_crCompare {a b : List Nat} (hpfx : rkOf a = rkOf b)
    (h : crCompare a b ≠ .gt) :
    crdbCompareSuffixes (regionOf a) (regionOf b) ≠ .gt := by
  rw [crCompare_of_rk_eq (by rw [hpfx]; exact cmpL_self _)] at h
  exact h

theorem sortedB_pair :
    ∀ ks : List (List Nat), sortedB ks = true → ∀ i j, i < j → j < ks.length →
      crCompare (ks.getD i []) (ks.getD j []) ≠ .gt := by
  intro ks
  induction ks with
  | nil => intro _ i j _ hj; simp at hj
  | cons a rest ih =>
    intro h i j hij hj
    simp only [sortedB, Bool.and_eq_true] at h
    cases i with
    | zero =>
      cases j with
      | zero => omega
      | succ j' =>
        have hmem : rest.getD j' [] ∈ rest := getD_mem_of_lt (by simpa using hj)
        have hone := List.all_eq_true.mp h.1 _ hmem
        simp only [List.getD_cons_zero, List.getD_cons_succ]
        intro hc
        rw [hc] at hone
        exact absurd hone (by decide)
    | succ i' =>
      cases j with
      | zero => omega
      | succ j' =>
        simp only [List.getD_cons_succ]
        exact ih h.2 i' j' (by omega) (by simpa using hj)

/-! ## ComparePrev analysis -/

theorem comparePrev_cases (w : CRWriter) (key pk : List Nat)
    (hne : w.rks ≠ [])
    (hlp : w.rks.getLastD [] = rkOf pk)
    (hps : w.prevSuffix = regionOf pk)
    (hord : crCompare pk key ≠ .gt) :
    (comparePrev w key).ukCmp = ordInt (crCompare key pk) := by
  have hpl : crdbSplit key - 1 = (rkOf key).length := by simp [crdbSplit]
  simp only [comparePrev, if_neg hne, hlp, hpl, take_rkOf]
  by_cases hbr : lcp (rkOf pk) (rkOf key) = (rkOf key).length
  · -- the new key's user key is a leading substring of the previous one
    rw [if_pos hbr]
    have htk : (rkOf pk).take (rkOf key).length = rkOf key :=
      take_of_lcp_right _ _ hbr
    rcases Nat.eq_or_lt_of_le (lcp_le_left (rkOf pk) (rkOf key)) with hlen | hlen
    · -- equal user keys
      have hpk_eq : rkOf pk = rkOf key := by
        have hth := htk
        rw [← hbr, hlen, List.take_length] at hth
        exact hth
      have hcmp : cmpL (rkOf key) (rkOf pk) = .eq :=
        cmpL_eq_iff.mpr hpk_eq.symm
      rw [crCompare_of_rk_eq hcmp, hps]
      rfl
    · -- the previous user key is strictly longer: contradicts sortedness
      exfalso
      have hgt : cmpL (rkOf pk) (rkOf key) = .gt := by
        have := cmpL_take_gt (a := rkOf pk) (n := (rkOf key).length)
          (by omega)
        rwa [htk] at this
      exact hord (crCompare_of_rk_gt hgt)
  · rw [if_neg hbr]
    have hcle : lcp (rkOf pk) (rkOf key) ≤ (rkOf key).length :=
      lcp_le_right _ _
    have hclt : lcp (rkOf pk) (rkOf key) < (rkOf key).length := by omega
    by_cases hlpc : (rkOf pk).length = lcp (rkOf pk) (rkOf key)
    · -- the previous user key is a proper leading substring of the new one
      rw [if_pos hlpc]
      have htk : (rkOf key).take (rkOf pk).length = rkOf pk :=
        take_of_lcp_left _ _ hlpc.symm
      have hgt : cmpL (rkOf key) (rkOf pk) = .gt := by
        have := cmpL_take_gt (a := rkOf key) (n := (rkOf pk).length)
          (by omega)
        rwa [htk] at this
      rw [crCompare_of_rk_gt hgt]
      rfl
    · -- both user keys continue past the diverging byte
      rw [if_neg hlpc]
      have hclt2 : lcp (rkOf pk) (rkOf key) < (rkOf pk).length := by
        have := lcp_le_left (rkOf pk) (rkOf key)
        omega
      have htake : (rkOf key).take (lcp (rkOf pk) (rkOf key)) =
          (rkOf pk).take (lcp (rkOf pk) (rkOf key)) :=
        (take_lcp_eq (rkOf pk) (rkOf key)).symm
      have hnei : (rkOf key).getD (lcp (rkOf pk) (rkOf key)) 0 ≠
          (rkOf pk).getD (lcp (rkOf pk) (rkOf key)) 0 :=
        fun hc => getD_lcp_ne (rkOf pk) (rkOf key) hclt2 hclt hc.symm
      have hdiv : cmpL (rkOf key) (rkOf pk) =
          cmpN ((rkOf key).getD (lcp (rkOf pk) (rkOf key)) 0)
            ((rkOf pk).getD (lcp (rkOf pk) (rkOf key)) 0) :=
        cmpL_diverge htake hclt hclt2 hnei
      have hkgd : key.getD (lcp (rkOf pk) (rkOf key)) 0 =
          (rkOf key).getD (lcp (rkOf pk) (rkOf key)) 0 := by
        have hgd := getD_take_lt (l := key) (n := (rkOf key).length)
          (i := lcp (rkOf pk) (rkOf key)) hclt 0
        rw [take_rkOf] at hgd
        exact hgd.symm
      rw [hkgd]
      have hcr : crCompare key pk =
          cmpN ((rkOf key).getD (lcp (rkOf pk) (rkOf key)) 0)
            ((rkOf pk).getD (lcp (rkOf pk) (rkOf key)) 0) := by
        rcases Nat.lt_trichotomy ((rkOf key).getD (lcp (rkOf pk) (rkOf key)) 0)
            ((rkOf pk).getD (lcp (rkOf pk) (rkOf key)) 0) with hlt | heqv | hgt
        · rw [crCompare_of_rk_lt (by rw [hdiv]; exact cmpN_of_lt hlt),
            cmpN_of_lt hlt]
        · exact absurd heqv hnei
        · rw [crCompare_of_rk_gt (by rw [hdiv]; exact cmpN_of_gt hgt),
            cmpN_of_gt hgt]
      rw [hcr]

/-- C5: for a key appended after at least one prior row (in the sorted order
the writer's contract requires), the `user_key_cmp` field of `ComparePrev`
equals the sign of a full engine-comparator comparison of the new key against
the previous row's key; with no prior row, `ComparePrev` returns
`user_key_cmp = +1` and `common_prefix_len = 0`. -/
theorem comparePrev_sign (ks : List (List Nat)) (key : List Nat) :
    (ks = [] → comparePrev (buildWriter ks) key = ⟨crdbSplit key, 0, 1⟩) ∧
    (ks ≠ [] → crCompare (ks.getLastD []) key ≠ .gt →
      (comparePrev (buildWriter ks) key).ukCmp =
        ordInt (crCompare key (ks.getLastD []))) := by
  constructor
  · intro h
    subst h
    rfl
  · intro hne hord
    apply comparePrev_cases (buildWriter ks) key (ks.getLastD [])
    · rw [show (buildWriter ks).rks = ks.map rkOf from
        by simpa [buildWriter, emptyWriter] using foldl_writeKey_rks ks emptyWriter]
      simpa using hne
    · rw [show (buildWriter ks).rks = ks.map rkOf from
        by simpa [buildWriter, emptyWriter] using foldl_writeKey_rks ks emptyWriter]
      exact getLastD_map_rk ks rkOf rfl
    · exact foldl_writeKey_prevSuffix ks emptyWriter hne
    · exact hord

/-- C5 witnessed: writer holding the single key "k" bare, new key "l" bare
(sorted append); the reported sign matches the comparator. -/
theorem comparePrev_sign_w :
    (comparePrev (buildWriter [[107, 0]]) [108, 0]).ukCmp =
      ordInt (crCompare [108, 0] [107, 0]) :=
  (comparePrev_sign [[107, 0]] [108, 0]).2 (by decide) (by decide)

/-! ## Suffix-kind lemmas -/

theorem suffixes_mvcc {a b : List Nat} (ha : a.length = 9 ∨ a.length = 13)
    (hb : b.length = 9 ∨ b.length = 13) :
    crdbCompareSuffixes a b =
      cmpPair (beN (b.take 8), if b.length = 13 then beN ((b.drop 8).take 4) else 0)
        (beN (a.take 8), if a.length = 13 then beN ((a.drop 8).take 4) else 0) := by
  have hane : a ≠ [] := by
    intro hc; rw [hc] at ha; simp at ha
  have hbne : b ≠ [] := by
    intro hc; rw [hc] at hb; simp at hb
  unfold crdbCompareSuffixes
  rw [if_neg (by tauto), if_pos ⟨ha, hb⟩]

theorem suffixes_unt {a b : List Nat} (hane : a ≠ []) (hbne : b ≠ [])
    (hnm : ¬(a.length = 9 ∨ a.length = 13)) :
    crdbCompareSuffixes a b = cmpL a b := by
  unfold crdbCompareSuffixes
  rw [if_neg (by tauto), if_neg (by tauto)]

theorem crCompare_q_empty {k q : List Nat} (hpfx : rkOf k = rkOf q)
    (hq : regionOf q = []) : crCompare k q ≠ .lt := by
  rw [crCompare_of_rk_eq (by rw [hpfx]; exact cmpL_self _)]
  unfold crdbCompareSuffixes
  rw [if_pos (Or.inr hq), hq]
  simp only [List.length_nil]
  intro hc
  have := cmpN_lt_iff.mp hc
  omega

theorem wallOf_mvcc {k : List Nat}
    (h : (regionOf k).length = 9 ∨ (regionOf k).length = 13) :
    wallOf k = beN ((regionOf k).take 8) := by
  simp only [wallOf, decodeEngineKey]
  rcases h with h | h <;> simp [h]

theorem logOf_mvcc {k : List Nat}
    (h : (regionOf k).length = 9 ∨ (regionOf k).length = 13) :
    logOf k = (if (regionOf k).length = 13 then beN (((regionOf k).drop 8).take 4) else 0) := by
  simp only [logOf, decodeEngineKey]
  rcases h with h | h <;> simp [h]

theorem untOf_untypedNE {k : List Nat} (h0 : (regionOf k).length ≠ 0)
    (h9 : (regionOf k).length ≠ 9) (h13 : (regionOf k).length ≠ 13) :
    untOf k = regionOf k := by
  simp only [untOf, decodeEngineKey]
  simp [h0, h9, h13]

/-! ## The generic second-level search argument -/

theorem seekCore (ks : List (List Nat)) (q : List Nat) (p : Nat → Bool)
    (r0 u : Nat) (hr0u : r0 ≤ u) (huN : u ≤ ks.length)
    (hlow : ∀ i, i < r0 → crCompare (ks.getD i []) q = .lt)
    (hupper : ∀ i, u ≤ i → i < ks.length → crCompare (ks.getD i []) q ≠ .lt)
    (heqv : ∀ i, r0 ≤ i → i < u → (p i = true ↔ crCompare (ks.getD i []) q ≠ .lt))
    (hmono : ∀ i j, r0 ≤ i → i ≤ j → j < u → p i = true → p j = true) :
    bsLoop p r0 u ≤ ks.length ∧
    (∀ i, i < bsLoop p r0 u → crCompare (ks.getD i []) q = .lt) ∧
    (bsLoop p r0 u < ks.length → crCompare (ks.getD (bsLoop p r0 u) []) q ≠ .lt) := by
  obtain ⟨b1, b2, b3, b4⟩ := bsLoop_spec p r0 u hr0u hmono
  refine ⟨by omega, ?_, ?_⟩
  · intro i hi
    by_cases hir : i < r0
    · exact hlow i hir
    · have hge : r0 ≤ i := by omega
      have hiu : i < u := by omega
      have hpf := b3 i hge hi
      rcases hc : crCompare (ks.getD i []) q with h | h | h
      · rfl
      · exfalso
        have hpt := (heqv i hge hiu).mpr (by rw [hc]; simp)
        rw [hpt] at hpf
        simp at hpf
      · exfalso
        have hpt := (heqv i hge hiu).mpr (by rw [hc]; simp)
        rw [hpt] at hpf
        simp at hpf
  · intro hrN
    rcases Nat.lt_or_ge (bsLoop p r0 u) u with hru | hru
    · exact (heqv _ b1 hru).mp (b4 hru)
    · have heqi : bsLoop p r0 u = u := by omega
      rw [heqi] at hrN ⊢
      exact hupper u (le_refl u) hrN

/-! ## Search-predicate equivalences -/

theorem mvcc_pred_iff (k q : List Nat) (hpfx : rkOf k = rkOf q)
    (hk : (regionOf k).length = 9 ∨ (regionOf k).length = 13)
    (hq : (regionOf q).length = 9 ∨ (regionOf q).length = 13)
    (hlog : logOf k < 2 ^ 32) (ql : Nat)
    (hql : ql = (if (regionOf q).length = 13 then beN (((regionOf q).drop 8).take 4) else 0)) :
    ((decide (wallOf k < beN ((regionOf q).take 8)) ||
      ((wallOf k == beN ((regionOf q).take 8)) && decide (logOf k % 2 ^ 32 ≤ ql))) = true)
      ↔ crCompare k q ≠ .lt := by
  have hcmp : crCompare k q = cmpPair
      (beN ((regionOf q).take 8),
        if (regionOf q).length = 13 then beN (((regionOf q).drop 8).take 4) else 0)
      (beN ((regionOf k).take 8),
        if (regionOf k).length = 13 then beN (((regionOf k).drop 8).take 4) else 0) := by
    rw [crCompare_of_rk_eq (by rw [hpfx]; exact cmpL_self _)]
    exact suffixes_mvcc hk hq
  rw [hcmp, hql, ← wallOf_mvcc hk, ← logOf_mvcc hk, ← wallOf_mvcc hq, ← logOf_mvcc hq]
  rw [Nat.mod_eq_of_lt hlog, Ne, cmpPair_lt_iff]
  simp only [Bool.or_eq_true, decide_eq_true_eq, Bool.and_eq_true, beq_iff_eq]
  constructor
  · intro h hc; omega
  · intro h; omega

theorem mvcc_pred_mono (ki kj : List Nat) (qw ql : Nat)
    (hi : (regionOf ki).length = 9 ∨ (regionOf ki).length = 13)
    (hj : (regionOf kj).length = 9 ∨ (regionOf kj).length = 13)
    (hli : logOf ki < 2 ^ 32) (hlj : logOf kj < 2 ^ 32)
    (hsuf : crdbCompareSuffixes (regionOf ki) (regionOf kj) ≠ .gt)
    (hpi : (decide (wallOf ki < qw) ||
      ((wallOf ki == qw) && decide (logOf ki % 2 ^ 32 ≤ ql))) = true) :
    (decide (wallOf kj < qw) ||
      ((wallOf kj == qw) && decide (logOf kj % 2 ^ 32 ≤ ql))) = true := by
  rw [suffixes_mvcc hi hj, ← wallOf_mvcc hi, ← logOf_mvcc hi, ← wallOf_mvcc hj,
    ← logOf_mvcc hj, Ne, cmpPair_gt_iff] at hsuf
  rw [Nat.mod_eq_of_lt hli] at hpi
  rw [Nat.mod_eq_of_lt hlj]
  simp only [Bool.or_eq_true, decide_eq_true_eq, Bool.and_eq_true, beq_iff_eq] at hpi ⊢
  omega

theorem unt_pred_iff (k q : List Nat) (hpfx : rkOf k = rkOf q)
    (hk0 : (regionOf k).length ≠ 0) (hk9 : (regionOf k).length ≠ 9)
    (hk13 : (regionOf k).length ≠ 13) (hq0 : (regionOf q).length ≠ 0) :
    ((!(cmpL (untOf k) (regionOf q) == .lt)) = true) ↔ crCompare k q ≠ .lt := by
  rw [untOf_untypedNE hk0 hk9 hk13]
  have hkne : regionOf k ≠ [] := fun hc => hk0 (by rw [hc]; rfl)
  have hqne : regionOf q ≠ [] := fun hc => hq0 (by rw [hc]; rfl)
  rw [crCompare_of_rk_eq (by rw [hpfx]; exact cmpL_self _),
    suffixes_unt hkne hqne (by tauto)]
  rcases hc : cmpL ( regionOf k) ( regionOf q) with h | h | h <;>
    simp [hc] <;> decide

theorem unt_pred_mono (ki kj : List Nat) (qs : List Nat)
    (hsuf : cmpL (regionOf ki) (regionOf kj) ≠ .gt)
    (hpi : cmpL (regionOf ki) qs ≠ .lt) : cmpL (regionOf kj) qs ≠ .lt := by
  intro hc
  exact hpi (cmpL_lt_of_ne_gt_of_lt hsuf hc)

/-- C3 amended: on a block built from well-formed keys sorted by the engine
comparator, `SeekGE(q)` returns the smallest row index whose key is ≥ `q`
(the row count if none) — provided that each row sharing the query's user key
carries a suffix of the kind the seek suffix is dispatched to: a non-empty
MVCC suffix when the query suffix has length 9 or 13, an untyped suffix when
the query suffix is untyped, with no constraint when the query suffix is
empty (length-14 query suffixes are excluded). The result is characterised
as: every earlier row is strictly below `q`, and the returned row (when in
range) is not below `q`. -/
theorem seekGE_correct (ks : List (List Nat)) (q : List Nat) (br sd : Int)
    (hwf : ks.all wfKey = true) (hs : sortedB ks = true)
    (hkind : runKindOK ks q = true) :
    (seekGE (buildCols ks) q br sd).1 ≤ ks.length ∧
    (∀ i, i < (seekGE (buildCols ks) q br sd).1 →
      crCompare (ks.getD i []) q = .lt) ∧
    ((seekGE (buildCols ks) q br sd).1 < ks.length →
      crCompare (ks.getD (seekGE (buildCols ks) q br sd).1 []) q ≠ .lt) := by
  have hcr : (buildCols ks).rks = ks.map rkOf := buildCols_rks ks
  have hlen_rks : (buildCols ks).rks.length = ks.length := by
    rw [hcr]; simp
  have htq : q.take (crdbSplit q - 1) = rkOf q := by
    simp [crdbSplit, take_rkOf]
  set r0 := firstIdx (fun s => !(cmpL s (rkOf q) == .lt)) (buildCols ks).rks with hr0
  have hps1 : (pfxSearch (buildCols ks).rks (q.take (crdbSplit q - 1))).1 = r0 := by
    simp [pfxSearch, htq, hr0]
  have hps2 : (pfxSearch (buildCols ks).rks (q.take (crdbSplit q - 1))).2 =
      (decide (r0 < (buildCols ks).rks.length) &&
        ((buildCols ks).rks.getD r0 [] == rkOf q)) := by
    simp [pfxSearch, htq, hr0]
  have hr0le : r0 ≤ ks.length := by
    rw [hr0, ← hlen_rks]
    exact firstIdx_le _
  have hlow : ∀ i, i < r0 → crCompare (ks.getD i []) q = .lt := by
    intro i hi
    have hiN : i < ks.length := by omega
    have hf := firstIdx_getD_false
      (p := fun s => !(cmpL s (rkOf q) == .lt)) (l := (buildCols ks).rks)
      (by rw [← hr0]; exact hi)
    rw [hcr, getD_map_rk ks rkOf i hiN] at hf
    have hx : (cmpL (rkOf (ks.getD i [])) (rkOf q) == Ordering.lt) = true := by
      simpa using hf
    have hflt : cmpL (rkOf (ks.getD i [])) (rkOf q) = .lt := by
      rcases hc : cmpL (rkOf (ks.getD i [])) (rkOf q) with h | h | h
      · rfl
      · rw [hc] at hx; exact absurd hx (by decide)
      · rw [hc] at hx; exact absurd hx (by decide)
    exact crCompare_of_rk_lt hflt
  have hseek : seekGE (buildCols ks) q br sd =
      (if (pfxSearch (buildCols ks).rks (q.take (crdbSplit q - 1))).2 then
        (seekGEOnSuffix (buildCols ks)
          (pfxSearch (buildCols ks).rks (q.take (crdbSplit q - 1))).1
          (q.drop (crdbSplit q)), true)
      else ((pfxSearch (buildCols ks).rks (q.take (crdbSplit q - 1))).1, false)) :=
    rfl
  by_cases he : (pfxSearch (buildCols ks).rks (q.take (crdbSplit q - 1))).2 = true
  case neg =>
    have hval : (seekGE (buildCols ks) q br sd).1 = r0 := by
      rw [hseek, if_neg he, hps1]
    rw [hval]
    refine ⟨hr0le, hlow, ?_⟩
    intro hrN
    have hf3 := firstIdx_getD_true
      (p := fun s => !(cmpL s (rkOf q) == .lt)) (l := (buildCols ks).rks)
      (by rw [← hr0, hlen_rks]; exact hrN)
    rw [← hr0] at hf3
    rw [hcr, getD_map_rk ks rkOf r0 hrN] at hf3
    have hne : rkOf (ks.getD r0 []) ≠ rkOf q := by
      intro hc
      apply he
      rw [hps2]
      have hd : (decide (r0 < (buildCols ks).rks.length)) = true := by
        rw [hlen_rks]
        exact decide_eq_true hrN
      rw [hd, hcr, getD_map_rk ks rkOf r0 hrN, hc]
      simp
    have hnlt : cmpL (rkOf (ks.getD r0 [])) (rkOf q) ≠ .lt := by
      have hx : (cmpL (rkOf (ks.getD r0 [])) (rkOf q) == Ordering.lt) = false := by
        simpa using hf3
      intro hc
      rw [hc] at hx
      exact absurd hx (by decide)
    have hgt : cmpL (rkOf (ks.getD r0 [])) (rkOf q) = .gt := by
      rcases hc : cmpL (rkOf (ks.getD r0 [])) (rkOf q) with h | h | h
      · exact absurd hc hnlt
      · exact absurd (cmpL_eq_iff.mp hc) hne
      · rfl
    rw [crCompare_of_rk_gt hgt]
    simp
  case pos =>
    rw [hps2] at he
    have hand := he
    simp only [Bool.and_eq_true] at hand
    obtain ⟨hd1, hd2⟩ := hand
    have hr0N : r0 < ks.length := by
      have := of_decide_eq_true hd1
      omega
    have hr0pfx : rkOf (ks.getD r0 []) = rkOf q := by
      have h2 := beq_iff_eq.mp hd2
      rwa [hcr, getD_map_rk ks rkOf r0 hr0N] at h2
    have hval : (seekGE (buildCols ks) q br sd).1 =
        seekGEOnSuffix (buildCols ks) r0 (regionOf q) := by
      rw [hseek]
      rw [if_pos (by rw [hps2]; exact he), hps1]
      rfl
    obtain ⟨hu1, hu2, hu3, hu4⟩ := seekSetBitGE_spec (buildCols ks).rks (r0 + 1)
      (by rw [hlen_rks]; omega)
    set u := seekSetBitGE (buildCols ks).rks (r0 + 1) with hudef
    have hu2' : u ≤ ks.length := by rw [← hlen_rks]; exact hu2
    have hr0u : r0 ≤ u := by omega
    have R1 : ∀ m, r0 + m < u → rkOf (ks.getD (r0 + m) []) = rkOf q := by
      intro m
      induction m with
      | zero => intro _; simpa using hr0pfx
      | succ n ihm =>
        intro hm
        have hbit := hu3 (r0 + n + 1) (by omega) (by omega)
        simp only [bitAt, Bool.or_eq_false_iff, Bool.not_eq_false',
          beq_iff_eq] at hbit
        have hb2 := hbit.2
        have hn1 : r0 + n + 1 < ks.length := by omega
        have hn0 : r0 + n < ks.length := by omega
        rw [hcr, getD_map_rk ks rkOf _ hn1] at hb2
        rw [getD_map_rk ks rkOf _ (by simpa using hn0)] at hb2
        have hprev := ihm (by omega)
        rw [show r0 + (n + 1) = r0 + n + 1 from rfl, hb2]
        simpa using hprev
    have R1' : ∀ i, r0 ≤ i → i < u → rkOf (ks.getD i []) = rkOf q := by
      intro i h1 h2
      have := R1 (i - r0) (by omega)
      rwa [show r0 + (i - r0) = i by omega] at this
    have M : ∀ i j, i < j → j < ks.length →
        cmpL (rkOf (ks.getD i [])) (rkOf (ks.getD j [])) ≠ .gt :=
      fun i j h1 h2 => rk_ne_gt_of_crCompare (sortedB_pair ks hs i j h1 h2)
    have hupper : ∀ i, u ≤ i → i < ks.length →
        crCompare (ks.getD i []) q ≠ .lt := by
      intro i hui hiN
      have huN : u < ks.length := by omega
      have hbitu := hu4 (by rw [hlen_rks]; exact huN)
      simp only [bitAt, Bool.or_eq_true, beq_iff_eq, Bool.not_eq_true',
        beq_eq_false_iff_ne] at hbitu
      have hneu : (buildCols ks).rks.getD u [] ≠
          (buildCols ks).rks.getD (u - 1) [] := by
        rcases hbitu with h | h
        · omega
        · exact h
      rw [hcr, getD_map_rk ks rkOf u huN] at hneu
      rw [getD_map_rk ks rkOf (u - 1) (by omega)] at hneu
      have hprev : rkOf (ks.getD (u - 1) []) = rkOf q :=
        R1' (u - 1) (by omega) (by omega)
      rw [hprev] at hneu
      have hmono1 := M (u - 1) u (by omega) huN
      rw [hprev] at hmono1
      have hlt_u : cmpL (rkOf q) (rkOf (ks.getD u [])) = .lt := by
        rcases hc : cmpL (rkOf q) (rkOf (ks.getD u [])) with h | h | h
        · rfl
        · exact absurd (cmpL_eq_iff.mp hc).symm hneu
        · exact absurd hc hmono1
      have hlt_i : cmpL (rkOf q) (rkOf (ks.getD i [])) = .lt := by
        rcases Nat.eq_or_lt_of_le hui with heqa | hlta
        · rwa [← heqa]
        · exact cmpL_lt_of_lt_of_ne_gt hlt_u (M u i hlta hiN)
      rw [crCompare_of_rk_gt (cmpL_gt_iff_swap.mpr hlt_i)]
      simp
    rw [hval]
    have hwfrow : ∀ i, i < ks.length → wfKey (ks.getD i []) = true := by
      intro i hi
      exact List.all_eq_true.mp hwf _ (getD_mem_of_lt hi)
    have hwallsD : ∀ i, i < ks.length →
        (buildCols ks).walls.getD i 0 = wallOf (ks.getD i []) := by
      intro i hi
      rw [buildCols_walls]
      exact getD_map_nat ks wallOf i hi
    have hlogD : ∀ i, i < ks.length →
        (buildCols ks).logicals.getD i 0 = logOf (ks.getD i []) := by
      intro i hi
      rw [buildCols_logicals]
      exact getD_map_nat ks logOf i hi
    have huntD : ∀ i, i < ks.length →
        (buildCols ks).untyped.getD i [] = untOf (ks.getD i []) := by
      intro i hi
      rw [buildCols_untyped]
      exact getD_map_rk ks untOf i hi
    by_cases h0 : (regionOf q).length = 0
    · have hres : seekGEOnSuffix (buildCols ks) r0 (regionOf q) = r0 := by
        unfold seekGEOnSuffix
        rw [if_pos h0]
      rw [hres]
      refine ⟨hr0le, hlow, ?_⟩
      intro hrN
      exact crCompare_q_empty hr0pfx (List.length_eq_zero.mp h0)
    · by_cases h14 : (regionOf q).length = 14
      · exfalso
        have hk := hkind
        simp [runKindOK, h14] at hk
      · by_cases h13 : (regionOf q).length = 13
        · -- MVCC seek with a logical component
          have hrowkind : ∀ i, r0 ≤ i → i < u →
              ((regionOf (ks.getD i [])).length = 9 ∨
                (regionOf (ks.getD i [])).length = 13) := by
            intro i h1 h2
            have hiN : i < ks.length := by omega
            have hall := hkind
            simp only [runKindOK] at hall
            rw [if_neg h0, if_pos (Or.inr h13)] at hall
            have hone := List.all_eq_true.mp hall _ (getD_mem_of_lt hiN)
            rw [R1' i h1 h2] at hone
            simp only [beq_self_eq_true, Bool.not_true, Bool.false_or] at hone
            simpa [isMvccRow] using hone
          have heqv : ∀ i, r0 ≤ i → i < u →
              (((decide ((buildCols ks).walls.getD i 0 < beN ((regionOf q).take 8)) ||
                (((buildCols ks).walls.getD i 0 == beN ((regionOf q).take 8)) &&
                  decide ((buildCols ks).logicals.getD i 0 % 2 ^ 32 ≤
                    beN (((regionOf q).drop 8).take 4)))) = true)
                ↔ crCompare (ks.getD i []) q ≠ .lt) := by
            intro i h1 h2
            have hiN : i < ks.length := by omega
            rw [hwallsD i hiN, hlogD i hiN]
            exact mvcc_pred_iff (ks.getD i []) q (R1' i h1 h2)
              (hrowkind i h1 h2) (Or.inr h13) (logOf_lt32 (hwfrow i hiN)) _
              (by rw [if_pos h13])
          have hmono : ∀ i j, r0 ≤ i → i ≤ j → j < u →
              ((decide ((buildCols ks).walls.getD i 0 < beN ((regionOf q).take 8)) ||
                (((buildCols ks).walls.getD i 0 == beN ((regionOf q).take 8)) &&
                  decide ((buildCols ks).logicals.getD i 0 % 2 ^ 32 ≤
                    beN (((regionOf q).drop 8).take 4)))) = true) →
              (decide ((buildCols ks).walls.getD j 0 < beN ((regionOf q).take 8)) ||
                (((buildCols ks).walls.getD j 0 == beN ((regionOf q).take 8)) &&
                  decide ((buildCols ks).logicals.getD j 0 % 2 ^ 32 ≤
                    beN (((regionOf q).drop 8).take 4)))) = true := by
            intro i j h1 h2 h3 hpi
            rcases Nat.eq_or_lt_of_le h2 with heqa | hlta
            · rwa [← heqa]
            · have hiN : i < ks.length := by omega
              have hjN : j < ks.length := by omega
              rw [hwallsD i hiN, hlogD i hiN] at hpi
              rw [hwallsD j hjN, hlogD j hjN]
              refine mvcc_pred_mono (ks.getD i []) (ks.getD j []) _ _
                (hrowkind i h1 (by omega)) (hrowkind j (by omega) h3)
                (logOf_lt32 (hwfrow i hiN)) (logOf_lt32 (hwfrow j hjN)) ?_ hpi
              exact suffix_ne_gt_of_crCompare
                (by rw [R1' i h1 (by omega), R1' j (by omega) h3])
                (sortedB_pair ks hs i j hlta hjN)
          have hres : seekGEOnSuffix (buildCols ks) r0 (regionOf q) =
              bsLoop (fun h =>
                decide ((buildCols ks).walls.getD h 0 < beN ((regionOf q).take 8)) ||
                  (((buildCols ks).walls.getD h 0 == beN ((regionOf q).take 8)) &&
                    decide ((buildCols ks).logicals.getD h 0 % 2 ^ 32 ≤
                      beN (((regionOf q).drop 8).take 4)))) r0 u := by
            unfold seekGEOnSuffix
            rw [if_neg h0, if_pos (Or.inl h13)]
          rw [hres]
          exact seekCore ks q _ r0 u hr0u hu2' hlow hupper heqv hmono
        · by_cases h9 : (regionOf q).length = 9
          · -- MVCC seek, wall time only
            have hrowkind : ∀ i, r0 ≤ i → i < u →
                ((regionOf (ks.getD i [])).length = 9 ∨
                  (regionOf (ks.getD i [])).length = 13) := by
              intro i h1 h2
              have hiN : i < ks.length := by omega
              have hall := hkind
              simp only [runKindOK] at hall
              rw [if_neg h0, if_pos (Or.inl h9)] at hall
              have hone := List.all_eq_true.mp hall _ (getD_mem_of_lt hiN)
              rw [R1' i h1 h2] at hone
              simp only [beq_self_eq_true, Bool.not_true, Bool.false_or] at hone
              simpa [isMvccRow] using hone
            have heqv : ∀ i, r0 ≤ i → i < u →
                (((decide ((buildCols ks).walls.getD i 0 < beN ((regionOf q).take 8)) ||
                  (((buildCols ks).walls.getD i 0 == beN ((regionOf q).take 8)) &&
                    decide ((buildCols ks).logicals.getD i 0 % 2 ^ 32 ≤ 0))) = true)
                  ↔ crCompare (ks.getD i []) q ≠ .lt) := by
              intro i h1 h2
              have hiN : i < ks.length := by omega
              rw [hwallsD i hiN, hlogD i hiN]
              exact mvcc_pred_iff (ks.getD i []) q (R1' i h1 h2)
                (hrowkind i h1 h2) (Or.inl h9) (logOf_lt32 (hwfrow i hiN)) _
                (by rw [if_neg h13])
            have hmono : ∀ i j, r0 ≤ i → i ≤ j → j < u →
                ((decide ((buildCols ks).walls.getD i 0 < beN ((regionOf q).take 8)) ||
                  (((buildCols ks).walls.getD i 0 == beN ((regionOf q).take 8)) &&
                    decide ((buildCols ks).logicals.getD i 0 % 2 ^ 32 ≤ 0))) = true) →
                (decide ((buildCols ks).walls.getD j 0 < beN ((regionOf q).take 8)) ||
                  (((buildCols ks).walls.getD j 0 == beN ((regionOf q).take 8)) &&
                    decide ((buildCols ks).logicals.getD j 0 % 2 ^ 32 ≤ 0))) = true := by
              intro i j h1 h2 h3 hpi
              rcases Nat.eq_or_lt_of_le h2 with heqa | hlta
              · rwa [← heqa]
              · have hiN : i < ks.length := by omega
                have hjN : j < ks.length := by omega
                rw [hwallsD i hiN, hlogD i hiN] at hpi
                rw [hwallsD j hjN, hlogD j hjN]
                refine mvcc_pred_mono (ks.getD i []) (ks.getD j []) _ _
                  (hrowkind i h1 (by omega)) (hrowkind j (by omega) h3)
                  (logOf_lt32 (hwfrow i hiN)) (logOf_lt32 (hwfrow j hjN)) ?_ hpi
                exact suffix_ne_gt_of_crCompare
                  (by rw [R1' i h1 (by omega), R1' j (by omega) h3])
                  (sortedB_pair ks hs i j hlta hjN)
            have hres : seekGEOnSuffix (buildCols ks) r0 (regionOf q) =
                bsLoop (fun h =>
                  decide ((buildCols ks).walls.getD h 0 < beN ((regionOf q).take 8)) ||
                    (((buildCols ks).walls.getD h 0 == beN ((regionOf q).take 8)) &&
                      decide ((buildCols ks).logicals.getD h 0 % 2 ^ 32 ≤ 0))) r0 u := by
              unfold seekGEOnSuffix
              rw [if_neg h0, if_neg (by tauto : ¬((regionOf q).length = 13 ∨
                (regionOf q).length = 14)), if_pos h9]
            rw [hres]
            exact seekCore ks q _ r0 u hr0u hu2' hlow hupper heqv hmono
          · -- untyped seek suffix
            have hrowunt : ∀ i, r0 ≤ i → i < u →
                ((regionOf (ks.getD i [])).length ≠ 0 ∧
                  (regionOf (ks.getD i [])).length ≠ 9 ∧
                  (regionOf (ks.getD i [])).length ≠ 13) := by
              intro i h1 h2
              have hiN : i < ks.length := by omega
              have hall := hkind
              simp only [runKindOK] at hall
              rw [if_neg h0, if_neg (by tauto : ¬((regionOf q).length = 9 ∨
                (regionOf q).length = 13)), if_neg h14] at hall
              have hone := List.all_eq_true.mp hall _ (getD_mem_of_lt hiN)
              rw [R1' i h1 h2] at hone
              simp only [beq_self_eq_true, Bool.not_true, Bool.false_or] at hone
              simp only [isUntypedRow, Bool.and_eq_true, Bool.not_eq_true',
                beq_eq_false_iff_ne] at hone
              exact ⟨hone.1.1, hone.1.2, hone.2⟩
            have heqv : ∀ i, r0 ≤ i → i < u →
                (((!(cmpL ((buildCols ks).untyped.getD i []) (regionOf q) == .lt)) = true)
                  ↔ crCompare (ks.getD i []) q ≠ .lt) := by
              intro i h1 h2
              have hiN : i < ks.length := by omega
              rw [huntD i hiN]
              obtain ⟨hk0, hk9, hk13⟩ := hrowunt i h1 h2
              exact unt_pred_iff (ks.getD i []) q (R1' i h1 h2) hk0 hk9 hk13 h0
            have hmono : ∀ i j, r0 ≤ i → i ≤ j → j < u →
                ((!(cmpL ((buildCols ks).untyped.getD i []) (regionOf q) == .lt)) = true) →
                (!(cmpL ((buildCols ks).untyped.getD j []) (regionOf q) == .lt)) = true := by
              intro i j h1 h2 h3 hpi
              rcases Nat.eq_or_lt_of_le h2 with heqa | hlta
              · rwa [← heqa]
              · have hiN : i < ks.length := by omega
                have hjN : j < ks.length := by omega
                obtain ⟨hi0, hi9, hi13⟩ := hrowunt i h1 (by omega)
                obtain ⟨hj0, hj9, hj13⟩ := hrowunt j (by omega) h3
                rw [huntD i hiN, untOf_untypedNE hi0 hi9 hi13] at hpi
                rw [huntD j hjN, untOf_untypedNE hj0 hj9 hj13]
                have hine : regionOf (ks.getD i []) ≠ [] :=
                  fun hc => hi0 (by rw [hc]; rfl)
                have hjne : regionOf (ks.getD j []) ≠ [] :=
                  fun hc => hj0 (by rw [hc]; rfl)
                have hsuf := suffix_ne_gt_of_crCompare
                  (by rw [R1' i h1 (by omega), R1' j (by omega) h3])
                  (sortedB_pair ks hs i j hlta hjN)
                rw [suffixes_unt hine hjne (by tauto)] at hsuf
                have hpi0 : (cmpL (regionOf (ks.getD i [])) (regionOf q) ==
                    Ordering.lt) = false := by
                  simpa using hpi
                have hpi' : cmpL (regionOf (ks.getD i [])) (regionOf q) ≠ .lt := by
                  intro hc
                  rw [hc] at hpi0
                  exact absurd hpi0 (by decide)
                have hj' := unt_pred_mono (ks.getD i []) (ks.getD j []) (regionOf q)
                  hsuf hpi'
                rcases hc : cmpL (regionOf (ks.getD j [])) (regionOf q) with h | h | h
                · exact absurd hc hj'
                · decide
                · decide
            have hres : seekGEOnSuffix (buildCols ks) r0 (regionOf q) =
                bsLoop (fun h =>
                  !(cmpL ((buildCols ks).untyped.getD h []) (regionOf q) == .lt))
                  r0 u := by
              unfold seekGEOnSuffix
              rw [if_neg h0, if_neg (by tauto : ¬((regionOf q).length = 13 ∨
                (regionOf q).length = 14)), if_neg h9]
            rw [hres]
            exact seekCore ks q _ r0 u hr0u hu2' hlow hupper heqv hmono

/-- C3 amended, witnessed on the sorted two-row MVCC block (wall times 200,
100) with query wall time 150: the returned row satisfies the least-row
characterisation. -/
theorem seekGE_correct_w :
    (seekGE (buildCols cexKeysW) cexQueryW 0 0).1 ≤ cexKeysW.length ∧
    (∀ i, i < (seekGE (buildCols cexKeysW) cexQueryW 0 0).1 →
      crCompare (cexKeysW.getD i []) cexQueryW = .lt) ∧
    ((seekGE (buildCols cexKeysW) cexQueryW 0 0).1 < cexKeysW.length →
      crCompare (cexKeysW.getD (seekGE (buildCols cexKeysW) cexQueryW 0 0).1 [])
        cexQueryW ≠ .lt) :=
  seekGE_correct cexKeysW cexQueryW 0 0 (by decide) (by decide) (by decide)
